import Mathlib

/-
Verification of the cryptographic core of the mega.py repository
(src/src/mega/crypto.py).

Modelling conventions:
* byte strings are lists of natural numbers (one entry per byte value);
* 32-bit words are natural numbers (callers only ever produce values
  below 2 ^ 32; `a32_to_str` extracts bytes with explicit `% 256`);
* the external AES-CBC primitive from the `Crypto.Cipher` library is an
  abstract parameter `E` (encryption) or `D` (decryption) of type
  `Bytes → Bytes → Bytes` (key, then data).  The length checks that the
  repository performs around it (`len(key) != 32` at crypto.py:41/58, and
  the cipher library's own requirement that CBC data be a multiple of the
  16-byte block) are modelled explicitly, so every fallible function
  returns `Except String _`, mirroring Python's `raise ValueError`.
-/

namespace Mega

/-- Byte strings: lists of byte values. -/
abbrev Bytes := List Nat

/-- Model of `a32_to_str` (crypto.py:216): `struct.pack` of each word as a
big-endian 32-bit unsigned integer, concatenated in order. -/
def a32_to_str (a : List Nat) : Bytes :=
  a.flatMap (fun w => [w / 2 ^ 24 % 256, w / 2 ^ 16 % 256, w / 2 ^ 8 % 256, w % 256])

/-- Helper for `str_to_a32`: read consecutive groups of four bytes as
big-endian 32-bit words (the input is already padded to a multiple of 4). -/
def bytesToWords : Bytes → List Nat
  | b0 :: b1 :: b2 :: b3 :: rest =>
      (b0 * 2 ^ 24 + b1 * 2 ^ 16 + b2 * 2 ^ 8 + b3) :: bytesToWords rest
  | _ => []

/-- Model of `str_to_a32` (crypto.py:229): right-pad with zero bytes to a
multiple of 4, then unpack big-endian 32-bit words. -/
def str_to_a32 (b : Bytes) : List Nat :=
  bytesToWords (b ++ List.replicate ((4 - b.length % 4) % 4) 0)

/-- Model of `aes_cbc_encrypt` (crypto.py:30): the repository first rejects
keys that are not exactly 32 bytes (crypto.py:41), then delegates to the
external cipher.  The external `AES.new(key, MODE_CBC, b'\x00'*16).encrypt`
call is the abstract parameter `E`; the cipher library itself raises
`ValueError` when the data is not a multiple of the 16-byte block size,
which is the second check here. -/
def aes_cbc_encrypt (E : Bytes → Bytes → Bytes) (data key : Bytes) : Except String Bytes :=
  if key.length ≠ 32 then .error "Key must be 32 bytes long"
  else if data.length % 16 ≠ 0 then .error "Data must be padded to 16 byte boundary in CBC mode"
  else .ok (E key data)

/-- Model of `aes_cbc_decrypt` (crypto.py:47): same contract as encryption,
with the abstract decryption primitive `D`. -/
def aes_cbc_decrypt (D : Bytes → Bytes → Bytes) (data key : Bytes) : Except String Bytes :=
  if key.length ≠ 32 then .error "Key must be 32 bytes long"
  else if data.length % 16 ≠ 0 then .error "Data must be padded to 16 byte boundary in CBC mode"
  else .ok (D key data)

/-- Model of `aes_cbc_encrypt_a32` (crypto.py:64): check that the key has
exactly 4 words, serialize both operands, encrypt, convert back to words. -/
def aes_cbc_encrypt_a32 (E : Bytes → Bytes → Bytes) (data key : List Nat) :
    Except String (List Nat) :=
  if key.length ≠ 4 then .error "Key must be 4 integers long"
  else str_to_a32 <$> aes_cbc_encrypt E (a32_to_str data) (a32_to_str key)

/-- Model of `aes_cbc_decrypt_a32` (crypto.py:80). -/
def aes_cbc_decrypt_a32 (D : Bytes → Bytes → Bytes) (data key : List Nat) :
    Except String (List Nat) :=
  if key.length ≠ 4 then .error "Key must be 4 integers long"
  else str_to_a32 <$> aes_cbc_decrypt D (a32_to_str data) (a32_to_str key)

/-- Iterate a fallible step `n` times (Python's `for r in range(n)` loop whose
body rebinds the accumulator and whose index is unused). -/
def iterateExcept {α ε : Type} (f : α → Except ε α) : Nat → α → Except ε α
  | 0, a => .ok a
  | n + 1, a => f a >>= iterateExcept f n

/-- Model of the 4-word block extraction inside `prepare_key`
(crypto.py:133-136): `key[i] = arr[i+j]` when `i + j < len(arr)`, else 0. -/
def prepare_key_block (arr : List Nat) (j : Nat) : List Nat :=
  (List.range 4).map (fun i => if i + j < arr.length then arr.getD (i + j) 0 else 0)

/-- Model of one outer round of `prepare_key` (crypto.py:132-137): fold the
accumulator through every 4-word block of the input (`for j in
range(0, len(arr), 4)`). -/
def prepare_key_round (E : Bytes → Bytes → Bytes) (arr pkey : List Nat) :
    Except String (List Nat) :=
  (List.range' 0 ((arr.length + 3) / 4) 4).foldlM
    (fun pk j => aes_cbc_encrypt_a32 E pk (prepare_key_block arr j)) pkey

/-- Model of `prepare_key` (crypto.py:118): reject lengths that are not a
multiple of 4, then run 0x10000 outer rounds starting from the fixed
constant. -/
def prepare_key (E : Bytes → Bytes → Bytes) (arr : List Nat) : Except String (List Nat) :=
  if arr.length % 4 ≠ 0 then .error "Input array length must be multiple of 4"
  else iterateExcept (prepare_key_round E arr) 0x10000
    [0x93C467E3, 0x7DB0C7A4, 0xD1BE3F81, 0x0152CB56]

/-- Standard base64 alphabet used by the external `base64.b64encode`. -/
def b64alphabet : List Char :=
  "ABCDEFGHIJKLMNOPQRSTUVWXYZabcdefghijklmnopqrstuvwxyz0123456789+/".data

/-- Model of the external `base64.b64encode`: encode 3-byte groups as four
alphabet characters, padding the final partial group with `=`. -/
def b64encode : Bytes → List Char
  | b0 :: b1 :: b2 :: rest =>
      let n := b0 * 65536 + b1 * 256 + b2
      b64alphabet.getD (n / 2 ^ 18 % 64) 'A' :: b64alphabet.getD (n / 2 ^ 12 % 64) 'A' ::
        b64alphabet.getD (n / 2 ^ 6 % 64) 'A' :: b64alphabet.getD (n % 64) 'A' :: b64encode rest
  | [b0, b1] =>
      let n := b0 * 65536 + b1 * 256
      [b64alphabet.getD (n / 2 ^ 18 % 64) 'A', b64alphabet.getD (n / 2 ^ 12 % 64) 'A',
        b64alphabet.getD (n / 2 ^ 6 % 64) 'A', '=']
  | [b0] =>
      let n := b0 * 65536
      [b64alphabet.getD (n / 2 ^ 18 % 64) 'A', b64alphabet.getD (n / 2 ^ 12 % 64) 'A', '=', '=']
  | [] => []

/-- Model of `base64_url_encode` (crypto.py:282): standard encode, then
substitute the URL-safe alphabet and drop the padding. -/
def base64_url_encode (data : Bytes) : String :=
  String.mk (((b64encode data).map
    (fun c => if c = '+' then '-' else if c = '/' then '_' else c)).filter (fun c => c ≠ '='))

/-- Model of `a32_to_base64` (crypto.py:290). -/
def a32_to_base64 (a : List Nat) : String :=
  base64_url_encode (a32_to_str a)

/-- Model of `stringhash` (crypto.py:96): check the key length, xor-fold the
input words into a 4-word accumulator, self-encrypt it 0x4000 times, and
base64url-encode words 0 and 2 of the result.  The text argument is taken
as its Latin-1 byte encoding (Python's `makebyte`). -/
def stringhash (E : Bytes → Bytes → Bytes) (s : Bytes) (aeskey : List Nat) :
    Except String String :=
  if aeskey.length ≠ 4 then .error "AES key must be 4 integers long"
  else
    let s32 := str_to_a32 s
    let h0 := (List.range s32.length).foldl
      (fun h i => h.set (i % 4) ((h.getD (i % 4) 0) ^^^ s32.getD i 0)) [0, 0, 0, 0]
    (fun h32 => a32_to_base64 [h32.getD 0 0, h32.getD 2 0]) <$>
      iterateExcept (fun h => aes_cbc_encrypt_a32 E h aeskey) 0x4000 h0

/-- Model of `encrypt_key` (crypto.py:141): check the key length, then
concatenate the word-CBC encryption of each 4-word slice `a[i:i+4]`
(`sum(generator, ())` evaluates the slices left to right and stops at the
first raised exception, which is a left monadic fold). -/
def encrypt_key (E : Bytes → Bytes → Bytes) (a key : List Nat) : Except String (List Nat) :=
  if key.length ≠ 4 then .error "Key must be 4 integers long"
  else (List.range' 0 ((a.length + 3) / 4) 4).foldlM
    (fun acc i => (fun w => acc ++ w) <$> aes_cbc_encrypt_a32 E ((a.drop i).take 4) key) []

/-- Model of `decrypt_key` (crypto.py:158). -/
def decrypt_key (D : Bytes → Bytes → Bytes) (a key : List Nat) : Except String (List Nat) :=
  if key.length ≠ 4 then .error "Key must be 4 integers long"
  else (List.range' 0 ((a.length + 3) / 4) 4).foldlM
    (fun acc i => (fun w => acc ++ w) <$> aes_cbc_decrypt_a32 D ((a.drop i).take 4) key) []

/-- Byte values of the ASCII magic string `MEGA`. -/
def megaMagic : Bytes := [77, 69, 71, 65]

/-- Model of `encrypt_attr` (crypto.py:175): check the key length, prepend
the magic bytes to the JSON serialization of the attributes (the external
`json.dumps` output is taken as the byte-string argument `attrJson`),
right-pad with `16 - len % 16` zero bytes, and byte-CBC-encrypt. -/
def encrypt_attr (E : Bytes → Bytes → Bytes) (attrJson : Bytes) (key : List Nat) :
    Except String Bytes :=
  if key.length ≠ 4 then .error "Key must be 4 integers long"
  else
    let attr_str := megaMagic ++ attrJson
    aes_cbc_encrypt E (attr_str ++ List.replicate (16 - attr_str.length % 16) 0) (a32_to_str key)

/-- Model of Python's `rstrip(chr(0))`: drop trailing zero bytes. -/
def rstripNul (s : Bytes) : Bytes :=
  (s.reverse.dropWhile (fun b => b = 0)).reverse

/-- Model of `decrypt_attr` (crypto.py:193): check the key length, then run
the `try` block: decrypt, strip trailing zero bytes, compare the first six
characters with the bytes of the literal sequence MEGA followed by an
opening brace and a double quote (values 123 and 34), and on a match parse
the JSON after the 4-byte magic.  The external `json.loads` is the abstract
parameter `parse`; a `ValueError` from the cipher layer or a failed parse is
caught and turned into `none`. -/
def decrypt_attr {α : Type} (D : Bytes → Bytes → Bytes) (parse : Bytes → Option α)
    (attr : Bytes) (key : List Nat) : Except String (Option α) :=
  if key.length ≠ 4 then .error "Key must be 4 integers long"
  else
    match aes_cbc_decrypt D attr (a32_to_str key) with
    | .error _ => .ok none
    | .ok dec =>
      let s := rstripNul dec
      if s.take 6 = megaMagic ++ [123, 34] then .ok (parse (s.drop 4)) else .ok none

/-- Serialized words occupy exactly four bytes each. -/
theorem length_a32_to_str (a : List Nat) : (a32_to_str a).length = 4 * a.length := by
  induction a with
  | nil => rfl
  | cons w rest ih =>
      simp only [a32_to_str, List.flatMap_cons, List.length_append] at *
      simp only [List.length_cons, List.length_nil]
      omega

/-- A word-level CBC call with a well-formed 4-word key always fails: the
serialized key is 16 bytes, but the byte-level routine demands 32. -/
theorem aes_cbc_encrypt_a32_key_bug (E : Bytes → Bytes → Bytes) (data key : List Nat)
    (hk : key.length = 4) :
    aes_cbc_encrypt_a32 E data key = .error "Key must be 32 bytes long" := by
  have h16 : (a32_to_str key).length = 16 := by rw [length_a32_to_str, hk]
  simp [aes_cbc_encrypt_a32, aes_cbc_encrypt, hk, h16]

/-- Decryption counterpart of `aes_cbc_encrypt_a32_key_bug`. -/
theorem aes_cbc_decrypt_a32_key_bug (D : Bytes → Bytes → Bytes) (data key : List Nat)
    (hk : key.length = 4) :
    aes_cbc_decrypt_a32 D data key = .error "Key must be 32 bytes long" := by
  have h16 : (a32_to_str key).length = 16 := by rw [length_a32_to_str, hk]
  simp [aes_cbc_decrypt_a32, aes_cbc_decrypt, hk, h16]

/-- Claim C1: `prepare_key` is supposed to return the 0x10000-round CBC
accumulator for every word array whose length is a multiple of 4, and to
reject other lengths.  The rejection branch works, but on the very first
block of any non-empty multiple-of-4 input the code raises
`ValueError('Key must be 32 bytes long')`: `aes_cbc_encrypt_a32` hands the
16-byte serialization of its 4-word key to `aes_cbc_encrypt`, which demands
32 bytes (crypto.py:41). -/
theorem prepare_key_key_length_bug :
    ∀ E : Bytes → Bytes → Bytes,
      prepare_key E [1, 2, 3, 4] = .error "Key must be 32 bytes long"
    ∧ prepare_key E [1] = .error "Input array length must be multiple of 4" :=
  fun _ => ⟨rfl, rfl⟩

/-- Claim C2: `stringhash` is supposed to return the base64url encoding of
words 0 and 2 of the 0x4000-round accumulator, and to reject keys that are
not 4 words.  The rejection branch works, but the first encryption round of
any call with a 4-word key raises `ValueError('Key must be 32 bytes long')`
for the same reason as in `prepare_key`. -/
theorem stringhash_key_length_bug :
    ∀ E : Bytes → Bytes → Bytes,
      stringhash E [] [0, 0, 0, 0] = .error "Key must be 32 bytes long"
    ∧ stringhash E [] [1, 2, 3] = .error "AES key must be 4 integers long" :=
  fun _ => ⟨rfl, rfl⟩

/-- Claim C3: `encrypt_key` and `decrypt_key` are supposed to be mutually
inverse on word arrays whose length is a multiple of 4.  In fact both raise
`ValueError('Key must be 32 bytes long')` on every non-empty input with a
4-word key, so the round trip never returns. -/
theorem key_wrap_round_trip_bug :
    ∀ E D : Bytes → Bytes → Bytes,
      encrypt_key E [0, 0, 0, 0] [0, 0, 0, 0] = .error "Key must be 32 bytes long"
    ∧ decrypt_key D [0, 0, 0, 0] [0, 0, 0, 0] = .error "Key must be 32 bytes long" :=
  fun _ _ => ⟨rfl, rfl⟩

/-- Claim C4, counterexample: on the 1-word input the code does not
zero-pad and encrypt the short block — it raises
`ValueError('Key must be 32 bytes long')` before the cipher is ever reached
(and even with a 32-byte-keyed cipher the 4-byte serialization of the short
slice would be rejected by the CBC layer, since `a32_to_str` never pads). -/
theorem encrypt_key_no_padding_counterexample :
    encrypt_key (fun _ d => d) [1] [0, 0, 0, 0] = .error "Key must be 32 bytes long" :=
  rfl

/-- Claim C4, amended: `encrypt_key`/`decrypt_key` slice the input into
consecutive 4-word groups and feed each slice to an independent word-CBC
call, but the last short group is passed through unpadded, and with a
4-word key the byte-level 32-byte key check rejects the first group, so
both functions fail with `Key must be 32 bytes long` for every non-empty
input and return the empty tuple for the empty input. -/
theorem encrypt_key_amended (E D : Bytes → Bytes → Bytes) (a key : List Nat)
    (hk : key.length = 4) :
    (a = [] → encrypt_key E a key = .ok [] ∧ decrypt_key D a key = .ok [])
    ∧ (a ≠ [] → encrypt_key E a key = .error "Key must be 32 bytes long"
        ∧ decrypt_key D a key = .error "Key must be 32 bytes long") := by
  constructor
  · rintro rfl
    constructor <;> (simp [encrypt_key, decrypt_key, hk]; rfl)
  · intro ha
    have hlen : 0 < a.length := List.length_pos.mpr ha
    obtain ⟨k, hkk⟩ : ∃ k, (a.length + 3) / 4 = k + 1 :=
      ⟨(a.length + 3) / 4 - 1, by omega⟩
    constructor
    · simp only [encrypt_key, hk]
      rw [if_neg (by omega), hkk, List.range'_succ, List.foldlM_cons,
        aes_cbc_encrypt_a32_key_bug E _ key hk]
      rfl
    · simp only [decrypt_key, hk]
      rw [if_neg (by omega), hkk, List.range'_succ, List.foldlM_cons,
        aes_cbc_decrypt_a32_key_bug D _ key hk]
      rfl

/-- Witness for `encrypt_key_amended` at concrete inputs. -/
theorem encrypt_key_amended_witness :
    (encrypt_key (fun _ d => d) [1] [0, 0, 0, 0] = .error "Key must be 32 bytes long"
      ∧ decrypt_key (fun _ d => d) [1] [0, 0, 0, 0] = .error "Key must be 32 bytes long")
    ∧ encrypt_key (fun _ d => d) [] [0, 0, 0, 0] = .ok [] := by
  refine ⟨(encrypt_key_amended (fun _ d => d) (fun _ d => d) [1] [0, 0, 0, 0] rfl).2
    (by simp), ?_⟩
  exact ((encrypt_key_amended (fun _ d => d) (fun _ d => d) [] [0, 0, 0, 0] rfl).1 rfl).1

/-- Claim C5: encrypting then decrypting attributes is supposed to return
the original mapping.  In fact `encrypt_attr` raises
`ValueError('Key must be 32 bytes long')` for every attribute dictionary
and every 4-word key (here at the serialization of the empty dictionary,
bytes 123 and 125), so the round trip never completes. -/
theorem attr_round_trip_bug :
    ∀ E : Bytes → Bytes → Bytes,
      encrypt_attr E [123, 125] [0, 0, 0, 0] = .error "Key must be 32 bytes long" :=
  fun _ => rfl

/-- Claim C6: `decrypt_attr` never propagates a decode failure.  With a
4-word key it returns the absence value `none` for every ciphertext (the
cipher layer's `ValueError` — here triggered on every call by the 16-byte
key — as well as a failed magic check or a failed JSON parse are all caught
inside the function), and only a key whose length is not 4 words raises. -/
theorem decrypt_attr_never_raises {α : Type} (D : Bytes → Bytes → Bytes)
    (parse : Bytes → Option α) (attr : Bytes) (key : List Nat) :
    (key.length = 4 → decrypt_attr D parse attr key = .ok none)
    ∧ (key.length ≠ 4 → decrypt_attr D parse attr key = .error "Key must be 4 integers long") := by
  constructor
  · intro hk
    have h16 : (a32_to_str key).length = 16 := by rw [length_a32_to_str, hk]
    simp [decrypt_attr, aes_cbc_decrypt, hk, h16]
  · intro hk
    simp [decrypt_attr, hk]

/-- Witness for `decrypt_attr_never_raises` at concrete inputs. -/
theorem decrypt_attr_never_raises_witness :
    decrypt_attr (fun _ d => d) (fun _ => (none : Option Unit)) [1, 2, 3] [0, 0, 0, 0] = .ok none
    ∧ decrypt_attr (fun _ d => d) (fun _ => (none : Option Unit)) [1, 2, 3] []
        = .error "Key must be 4 integers long" :=
  ⟨(decrypt_attr_never_raises _ _ _ _).1 rfl,
   (decrypt_attr_never_raises _ _ _ _).2 (by decide)⟩

/-- Model of the `get_chunks` while loop (crypto.py:297-301): while
`p + s < size` emit `(p, s)`, advance the offset, and grow the step by
0x20000 until the 0x100000 cap; once the condition fails emit the final
remainder pair `(p, size - p)`.  The loop only ever runs with a positive
step (it starts at 0x20000 and never shrinks), recorded as the hypothesis
`hs` that justifies termination. -/
def get_chunks_loop (size p s : Nat) (hs : 0 < s) : List (Nat × Nat) :=
  if h : p + s < size then
    (p, s) :: get_chunks_loop size (p + s) (if s < 0x100000 then s + 0x20000 else s)
      (by split <;> omega)
  else [(p, size - p)]
termination_by size - p
decreasing_by omega

/-- Model of `get_chunks` (crypto.py:294): start at offset 0, step 0x20000. -/
def get_chunks (size : Nat) : List (Nat × Nat) :=
  get_chunks_loop size 0 0x20000 (by omega)

/-- Contiguity predicate: the pairs start exactly at the given offset and
each pair begins where the previous one ended (no gaps, no overlaps). -/
def chunksFrom : Nat → List (Nat × Nat) → Prop
  | _, [] => True
  | p, c :: rest => c.1 = p ∧ chunksFrom (c.1 + c.2) rest

/-- Total number of bytes covered by a chunk list. -/
def chunksLen (l : List (Nat × Nat)) : Nat :=
  (l.map (fun c => c.2)).sum

/-- Invariant of the chunk loop: from any reachable state the emitted list
is contiguous from the current offset, non-empty, and covers exactly the
remaining `size - p` bytes. -/
theorem get_chunks_loop_spec (size : Nat) :
    ∀ (n p s : Nat) (hs : 0 < s), size - p ≤ n →
      chunksFrom p (get_chunks_loop size p s hs)
      ∧ chunksLen (get_chunks_loop size p s hs) = size - p
      ∧ get_chunks_loop size p s hs ≠ [] := by
  intro n
  induction n with
  | zero =>
      intro p s hs hn
      rw [get_chunks_loop, dif_neg (by omega)]
      exact ⟨⟨rfl, trivial⟩, by simp [chunksLen], by simp⟩
  | succ n ih =>
      intro p s hs hn
      rw [get_chunks_loop]
      by_cases h : p + s < size
      · rw [dif_pos h]
        obtain ⟨h1, h2, h3⟩ := ih (p + s) (if s < 0x100000 then s + 0x20000 else s)
          (by split <;> omega) (by omega)
        refine ⟨⟨rfl, h1⟩, ?_, by simp⟩
        simp only [chunksLen, List.map_cons, List.sum_cons] at h2 ⊢
        omega
      · rw [dif_neg h]
        exact ⟨⟨rfl, trivial⟩, by simp [chunksLen], by simp⟩

/-- Claim C7: for every total size, `get_chunks` emits a non-empty sequence
that starts at offset 0, is contiguous (each pair begins where the previous
ended, so there are no gaps and no overlaps), and whose lengths sum to
exactly the total size — i.e. it covers `[0, size)` in order. -/
theorem get_chunks_spec (size : Nat) :
    chunksFrom 0 (get_chunks size)
    ∧ chunksLen (get_chunks size) = size
    ∧ get_chunks size ≠ [] := by
  obtain ⟨h1, h2, h3⟩ := get_chunks_loop_spec size size 0 0x20000 (by omega) (by omega)
  exact ⟨h1, by simpa using h2, h3⟩

/-- Concrete evaluation of the chunk plan for a 1500000-byte transfer. -/
theorem get_chunks_1500000 :
    get_chunks 1500000 =
      [(0, 131072), (131072, 262144), (393216, 393216), (786432, 524288), (1310720, 189280)] := by
  rw [get_chunks]
  rw [get_chunks_loop]; norm_num
  rw [get_chunks_loop]; norm_num
  rw [get_chunks_loop]; norm_num
  rw [get_chunks_loop]; norm_num
  rw [get_chunks_loop]; norm_num

/-- Claim C8, counterexample: the claimed boundary prefix is wrong.  The
loop grows the chunk size by 0x20000 = 131072 on every iteration, so the
second pair of `get_chunks 1500000` is `(131072, 262144)`, not
`(131072, 163840)`, and none of the later claimed pairs occur either. -/
theorem get_chunks_1500000_counterexample :
    (get_chunks 1500000).take 6 ≠
      [(0, 131072), (131072, 163840), (294912, 196608), (491520, 229376),
        (720896, 262144), (983040, 1048576)] := by
  rw [get_chunks_1500000]
  decide

/-- Claim C8, amended: `get_chunks 1500000` produces exactly the pairs
`(0, 131072), (131072, 262144), (393216, 393216), (786432, 524288),
(1310720, 189280)` — the chunk size grows by 131072 each round — ending in
one remainder pair, with the lengths summing to exactly 1500000 and the
pairs covering `[0, 1500000)` contiguously with no gaps or overlaps. -/
theorem get_chunks_1500000_amended :
    get_chunks 1500000 =
      [(0, 131072), (131072, 262144), (393216, 393216), (786432, 524288), (1310720, 189280)]
    ∧ chunksFrom 0 (get_chunks 1500000)
    ∧ chunksLen (get_chunks 1500000) = 1500000 := by
  refine ⟨get_chunks_1500000, ?_, ?_⟩
  · rw [get_chunks_1500000]
    norm_num [chunksFrom]
  · rw [get_chunks_1500000]
    norm_num [chunksLen]

/-- Big-endian value of a byte string, most significant byte first. -/
def beVal : Bytes → Nat
  | [] => 0
  | b :: rest => b * 256 ^ rest.length + beVal rest

/-- Model of `mpi_to_int` (crypto.py:246): drop the 2-byte bit-length
header and parse the remaining bytes as one hexadecimal literal
(`int(binascii.hexlify(s[2:]), 16)`).  `binascii.hexlify` of the empty
string is empty, and `int('', 16)` raises `ValueError`, so a buffer with no
magnitude bytes fails; otherwise the hex literal denotes exactly the
big-endian base-256 value of the magnitude bytes, accumulated digit pair by
digit pair. -/
def mpi_to_int (s : Bytes) : Except String Nat :=
  let mag := s.drop 2
  if mag.length = 0 then .error "invalid literal for int() with base 16"
  else .ok (mag.foldl (fun acc b => acc * 256 + b) 0)

/-- Accumulating bytes most-significant-first computes the big-endian value. -/
theorem foldl_beVal (l : Bytes) :
    ∀ acc : Nat, l.foldl (fun acc b => acc * 256 + b) acc = acc * 256 ^ l.length + beVal l := by
  induction l with
  | nil => intro acc; simp [beVal]
  | cons b rest ih =>
      intro acc
      rw [List.foldl_cons, ih (acc * 256 + b)]
      simp only [beVal, List.length_cons]
      ring

/-- Claim C10: `mpi_to_int` fails on every buffer of length 2 or less (the
2-byte header leaves an empty magnitude, which is not a valid hexadecimal
literal), and on every longer buffer it returns the magnitude bytes read as
a big-endian unsigned integer. -/
theorem mpi_to_int_spec (s : Bytes) :
    (s.length ≤ 2 → mpi_to_int s = .error "invalid literal for int() with base 16")
    ∧ (2 < s.length → mpi_to_int s = .ok (beVal (s.drop 2))) := by
  constructor
  · intro h
    have : (s.drop 2).length = 0 := by simp; omega
    simp [mpi_to_int, this]
  · intro h
    have hlen : (s.drop 2).length ≠ 0 := by simp; omega
    simp only [mpi_to_int, if_neg hlen]
    rw [foldl_beVal]
    simp

/-- Witness for `mpi_to_int_spec`: the header `0x00 0x08` followed by the
byte `0x05` decodes to 5, and a headerless buffer fails. -/
theorem mpi_to_int_spec_witness :
    mpi_to_int [0, 8, 5] = .ok 5
    ∧ mpi_to_int [0, 8] = .error "invalid literal for int() with base 16" := by
  constructor
  · have h := (mpi_to_int_spec [0, 8, 5]).2 (by norm_num)
    simpa [beVal] using h
  · exact (mpi_to_int_spec [0, 8]).1 (by norm_num)

/-- Termination bound for the extended Euclid recursion: Python's floor
remainder is strictly smaller in absolute value than the divisor. -/
theorem natAbs_fmod_lt (b a : Int) (ha : a ≠ 0) : (Int.fmod b a).natAbs < a.natAbs := by
  cases a with
  | ofNat n =>
      cases n with
      | zero => exact (ha rfl).elim
      | succ n =>
          rw [Int.ofNat_eq_natCast]
          have hpos : (0 : Int) < ((n + 1 : Nat) : Int) := by exact_mod_cast Nat.succ_pos n
          have h1 := Int.fmod_nonneg' b hpos
          have h2 := Int.fmod_lt_of_pos b hpos
          omega
  | negSucc n =>
      cases b with
      | ofNat m =>
          cases m with
          | zero =>
              have h : (Int.ofNat 0).fmod (Int.negSucc n) = 0 := rfl
              rw [h]
              simp only [Int.natAbs_zero, Int.natAbs_negSucc]
              omega
          | succ m =>
              have h : (Int.ofNat (m + 1)).fmod (Int.negSucc n)
                  = Int.subNatNat (m % (n + 1)) n := rfl
              rw [h, Int.subNatNat_eq_coe]
              have hm : m % (n + 1) < n + 1 := Nat.mod_lt _ (Nat.succ_pos n)
              simp only [Int.natAbs_negSucc]
              omega
      | negSucc m =>
          have h : (Int.negSucc m).fmod (Int.negSucc n) = -(((m + 1) % (n + 1) : Nat) : Int) := rfl
          rw [h]
          have hm : (m + 1) % (n + 1) < n + 1 := Nat.mod_lt _ (Nat.succ_pos n)
          simp only [Int.natAbs_negSucc]
          omega

/-- Model of `extended_gcd` (crypto.py:255): recursive extended Euclid on
Python integers; Python's `%` and `//` on `int` are floor mod and floor
division, i.e. `Int.fmod` and `Int.fdiv`. -/
def extended_gcd (a b : Int) : Int × Int × Int :=
  if ha : a = 0 then (b, 0, 1)
  else
    let r := extended_gcd (Int.fmod b a) a
    (r.1, r.2.2 - Int.fdiv b a * r.2.1, r.2.1)
termination_by a.natAbs
decreasing_by exact natAbs_fmod_lt b a ha

/-- Model of `modular_inverse` (crypto.py:263): run `extended_gcd`, reject
when the first component is not 1, otherwise return `x % m`. -/
def modular_inverse (a m : Int) : Except String Int :=
  let r := extended_gcd a m
  if r.1 ≠ 1 then .error "modular inverse does not exist"
  else .ok (Int.fmod r.2.1 m)

/-- Bezout identity for `extended_gcd`, valid for all integer inputs. -/
theorem extended_gcd_bezout (a b : Int) :
    a * (extended_gcd a b).2.1 + b * (extended_gcd a b).2.2 = (extended_gcd a b).1 := by
  induction a, b using extended_gcd.induct with
  | case1 b =>
      rw [extended_gcd, dif_pos rfl]
      ring
  | case2 a b ha ih =>
      rw [extended_gcd, dif_neg ha]
      dsimp only
      have hq := Int.fmod_add_fdiv b a
      linear_combination ih - (extended_gcd (Int.fmod b a) a).2.1 * hq

/-- On nonnegative inputs the first component of `extended_gcd` is the
(nonnegative) gcd. -/
theorem extended_gcd_fst :
    ∀ a b : Int, 0 ≤ a → 0 ≤ b → (extended_gcd a b).1 = (Int.gcd a b : Int) := by
  intro a b
  induction a, b using extended_gcd.induct with
  | case1 b =>
      intro _ hb
      rw [extended_gcd, dif_pos rfl]
      rw [Int.gcd_def]
      simp [Int.natAbs_of_nonneg hb]
  | case2 a b ha ih =>
      intro hha hb
      have hapos : 0 < a := lt_of_le_of_ne hha (Ne.symm ha)
      have hfm : 0 ≤ Int.fmod b a := Int.fmod_nonneg' b hapos
      rw [extended_gcd, dif_neg ha]
      dsimp only
      rw [ih hfm hha]
      congr 1
      obtain ⟨an, rfl⟩ := Int.eq_ofNat_of_zero_le hha
      obtain ⟨bn, rfl⟩ := Int.eq_ofNat_of_zero_le hb
      rw [Int.fmod_eq_emod _ hha, ← Int.ofNat_emod]
      rw [Int.gcd_def, Int.gcd_def]
      simp only [Int.natAbs_ofNat]
      exact (Nat.gcd_rec an bn).symm

/-- Claim C9, amended: for every integer `a ≥ 0` and modulus `m > 0`, when
`gcd(a, m) = 1` the function returns `x % m` normalized to `[0, m)` with
`a * x ≡ 1 (mod m)`, and when `gcd(a, m) ≠ 1` it fails with the
`modular inverse does not exist` error; moreover `extended_gcd a m` returns
`(g, x, y)` with `a*x + m*y = g = gcd(a, m)`.  (For negative `a` the
recursion produces `g = -gcd(a, m)`, so the unamended claim fails, see the
counterexample.) -/
theorem modular_inverse_spec (a m : Int) (hha : 0 ≤ a) (hm : 0 < m) :
    (Int.gcd a m = 1 →
      ∃ x, modular_inverse a m = .ok x ∧ 0 ≤ x ∧ x < m ∧ a * x % m = 1 % m)
    ∧ (Int.gcd a m ≠ 1 → modular_inverse a m = .error "modular inverse does not exist")
    ∧ a * (extended_gcd a m).2.1 + m * (extended_gcd a m).2.2 = (extended_gcd a m).1
    ∧ (extended_gcd a m).1 = (Int.gcd a m : Int) := by
  have hbez := extended_gcd_bezout a m
  have hfst := extended_gcd_fst a m hha (le_of_lt hm)
  refine ⟨?_, ?_, hbez, hfst⟩
  · intro hg
    have hr1 : (extended_gcd a m).1 = 1 := by rw [hfst, hg]; norm_num
    refine ⟨Int.fmod (extended_gcd a m).2.1 m, ?_, Int.fmod_nonneg' _ hm,
      Int.fmod_lt_of_pos _ hm, ?_⟩
    · simp [modular_inverse, hr1]
    · rw [Int.fmod_eq_emod _ (le_of_lt hm)]
      rw [Int.mul_emod, Int.emod_emod_of_dvd _ dvd_rfl, ← Int.mul_emod]
      have hax : a * (extended_gcd a m).2.1 = 1 + m * (-(extended_gcd a m).2.2) := by
        rw [hr1] at hbez
        linarith
      rw [hax, Int.add_mul_emod_self_left]
  · intro hg
    have hr1 : (extended_gcd a m).1 ≠ 1 := by
      rw [hfst]
      intro hc
      exact hg (by exact_mod_cast hc)
    simp [modular_inverse, hr1]

/-- Claim C9, counterexample: `gcd(-3, 11) = 1`, so the claim as stated
promises an inverse, but the code raises `modular inverse does not exist`:
for negative `a` the recursion bottoms out in a negative divisor and
returns `g = -1`, which fails the `g != 1` test. -/
theorem modular_inverse_neg_counterexample :
    modular_inverse (-3) 11 = .error "modular inverse does not exist"
    ∧ Int.gcd (-3) 11 = 1 := by
  have e1 : extended_gcd 0 (-1) = (-1, 0, 1) := by
    rw [extended_gcd, dif_pos rfl]
  have e2 : extended_gcd (-1) (-3) = (-1, 1, 0) := by
    rw [extended_gcd, dif_neg (by norm_num)]
    rw [(by decide : Int.fmod (-3 : Int) (-1) = 0), e1,
      (by decide : Int.fdiv (-3 : Int) (-1) = 3)]
    norm_num
  have e3 : extended_gcd (-3) 11 = (-1, 4, 1) := by
    rw [extended_gcd, dif_neg (by norm_num)]
    rw [(by decide : Int.fmod (11 : Int) (-3) = -1), e2,
      (by decide : Int.fdiv (11 : Int) (-3) = -4)]
    norm_num
  constructor
  · simp [modular_inverse, e3]
  · decide

/-- Witness for `modular_inverse_spec`: at `(3, 11)` the inverse is 4 and
at `(2, 4)` (gcd 2) the call fails. -/
theorem modular_inverse_spec_witness :
    modular_inverse 2 4 = .error "modular inverse does not exist"
    ∧ modular_inverse 3 11 = .ok 4 := by
  constructor
  · exact (modular_inverse_spec 2 4 (by norm_num) (by norm_num)).2.1 (by decide)
  · have e1 : extended_gcd 0 1 = (1, 0, 1) := by
      rw [extended_gcd, dif_pos rfl]
    have e2 : extended_gcd 1 2 = (1, 1, 0) := by
      rw [extended_gcd, dif_neg (by norm_num)]
      rw [(by decide : Int.fmod (2 : Int) 1 = 0), e1,
        (by decide : Int.fdiv (2 : Int) 1 = 2)]
      norm_num
    have e3 : extended_gcd 2 3 = (1, -1, 1) := by
      rw [extended_gcd, dif_neg (by norm_num)]
      rw [(by decide : Int.fmod (3 : Int) 2 = 1), e2,
        (by decide : Int.fdiv (3 : Int) 2 = 1)]
      norm_num
    have e4 : extended_gcd 3 11 = (1, 4, -1) := by
      rw [extended_gcd, dif_neg (by norm_num)]
      rw [(by decide : Int.fmod (11 : Int) 3 = 2), e3,
        (by decide : Int.fdiv (11 : Int) 3 = 3)]
      norm_num
    obtain ⟨x, hx, _, _, _⟩ := (modular_inverse_spec 3 11 (by norm_num) (by norm_num)).1 (by decide)
    have : modular_inverse 3 11 = .ok (Int.fmod 4 11) := by
      simp [modular_inverse, e4]
    simpa using this

end Mega
